import Mathlib

/-!
Shallow embedding of `src/h256.rs` (the `H256` type of the xsmt repository)
and proofs of the specification claims about it.

A Rust `H256` is `[u8; 32]`; we model it as a structure holding a function
`Fin 32 → Nat`, with a well-formedness predicate saying every byte is below
256 (a `u8`). Bit index `i : u8` is modelled as `Fin 256`. All operations
are translated byte-for-byte from the source: shifts, masks and bitwise
operations act on `Nat`, with `% 256` inserted exactly where the Rust `u8`
arithmetic truncates (the `0b11111111 << remain` mask in `copy_bits`).
Loops scanning indices downward (`fork_height`, the reversed-iterator
comparison in `Ord`) become fuel-indexed recursions counting down.
Array indexing, which panics out of range in Rust, additionally gets a
`..._checked` variant returning `Option`, with the bounds tests made
explicit; totality claims are stated about those.
-/

set_option maxRecDepth 20000

/-- Number of bits in a byte, the `BYTE_SIZE` constant of the source. -/
abbrev BYTE_SIZE : Nat := 8

/-- `H256`: 256 bits stored as 32 bytes, byte 0 holding bits 0–7. -/
structure H256 where
  bytes : Fin 32 → Nat

/-- The all-zero constant `ZERO`. -/
def ZERO : H256 := ⟨fun _ => 0⟩

instance : DecidableEq H256 := fun a b =>
  if h : a.bytes = b.bytes then
    isTrue (by cases a; cases b; simpa using h)
  else
    isFalse (fun hh => h (by rw [hh]))

namespace H256

/-- Well-formedness: every byte fits in a `u8`. -/
def Wf (a : H256) : Prop := ∀ j : Fin 32, a.bytes j < 256

instance (a : H256) : Decidable a.Wf := by
  unfold Wf; infer_instance

/-- `H256::zero`. -/
def zero : H256 := ZERO

/-- `H256::is_zero`: equality test against the `ZERO` constant. -/
def is_zero (a : H256) : Bool := decide (a = ZERO)

/-- `H256::get_bit`: read bit `i` — byte `i / 8`, intra-byte bit `i % 8`. -/
def get_bit (a : H256) (i : Fin 256) : Bool :=
  let byte_pos : Fin 32 := ⟨i.val / BYTE_SIZE, by show i.val / 8 < 32; have := i.isLt; omega⟩
  let bit_pos : Nat := i.val % BYTE_SIZE
  let bit : Nat := a.bytes byte_pos >>> bit_pos &&& 1
  bit != 0

/-- `H256::set_bit`: or the byte `i / 8` with `1 << (i % 8)`. -/
def set_bit (a : H256) (i : Fin 256) : H256 :=
  let byte_pos : Fin 32 := ⟨i.val / BYTE_SIZE, by show i.val / 8 < 32; have := i.isLt; omega⟩
  let bit_pos : Nat := i.val % BYTE_SIZE
  ⟨Function.update a.bytes byte_pos (a.bytes byte_pos ||| 1 <<< bit_pos)⟩

/-- `H256::clear_bit`: and the byte `i / 8` with the `u8` complement of
`1 << (i % 8)` (complement in eight bits is xor against `255`). -/
def clear_bit (a : H256) (i : Fin 256) : H256 :=
  let byte_pos : Fin 32 := ⟨i.val / BYTE_SIZE, by show i.val / 8 < 32; have := i.isLt; omega⟩
  let bit_pos : Nat := i.val % BYTE_SIZE
  ⟨Function.update a.bytes byte_pos (a.bytes byte_pos &&& (255 ^^^ 1 <<< bit_pos))⟩

/-- `H256::is_right`: alias for `get_bit` at `height`. -/
def is_right (a : H256) (height : Fin 256) : Bool := a.get_bit height

/-- `H256::as_slice`: the 32 bytes in stored order. -/
def as_slice (a : H256) : List Nat := (List.finRange 32).map a.bytes

/-- Loop body of `H256::fork_height`: scan bit positions `n-1, n-2, …, 0`
and return the first where `a` and `b` differ, else 0. -/
def forkAux (a b : H256) : Nat → Fin 256
  | 0 => ⟨0, by omega⟩
  | n + 1 =>
    if h : n < 256 then
      if a.get_bit ⟨n, h⟩ != b.get_bit ⟨n, h⟩ then ⟨n, h⟩ else forkAux a b n
    else forkAux a b n

/-- `H256::fork_height`: scan positions 255 down to 0. -/
def fork_height (a b : H256) : Fin 256 := forkAux a b 256

/-- `H256::copy_bits`: zero-initialise a target, copy the bytes from
`start / 8` on, then mask the low `start % 8` bits of the partial byte
with the `u8`-truncated `0b11111111 << remain`. -/
def copy_bits (a : H256) (start : Fin 256) : H256 :=
  let start_byte : Nat := start.val / BYTE_SIZE
  let target : H256 := ⟨fun j => if start_byte ≤ j.val then a.bytes j else 0⟩
  let remain : Nat := start.val % BYTE_SIZE
  have hsb : start_byte < 32 := by show start.val / 8 < 32; have := start.isLt; omega
  if remain > 0 then
    ⟨Function.update target.bytes ⟨start_byte, hsb⟩
      (target.bytes ⟨start_byte, hsb⟩ &&& ((255 <<< remain) % 256))⟩
  else
    target

/-- `H256::parent_path`: zero at height 255, otherwise `copy_bits (height+1)`. -/
def parent_path (a : H256) (height : Fin 256) : H256 :=
  if h : height.val = 255 then zero
  else a.copy_bits ⟨height.val + 1, by have := height.isLt; omega⟩

/-- Loop body of `Ord::cmp`: compare bytes `n-1, n-2, …, 0` (the source
compares the reversed byte iterators, so byte 31 is examined first). -/
def cmpAux (a b : H256) : Nat → Ordering
  | 0 => Ordering.eq
  | n + 1 =>
    if h : n < 32 then
      if a.bytes ⟨n, h⟩ < b.bytes ⟨n, h⟩ then Ordering.lt
      else if b.bytes ⟨n, h⟩ < a.bytes ⟨n, h⟩ then Ordering.gt
      else cmpAux a b n
    else cmpAux a b n

/-- `Ord::cmp` for `H256`: reversed lexicographic byte comparison. -/
def cmp (a b : H256) : Ordering := cmpAux a b 32

/-- Numeric value of the low `n` bytes: byte `j` weighs `256 ^ j`. -/
def valAux (a : H256) : Nat → Nat
  | 0 => 0
  | n + 1 =>
    if h : n < 32 then a.bytes ⟨n, h⟩ * 256 ^ n + valAux a n
    else valAux a n

/-- The 256-bit integer denoted by an `H256` (byte 31 most significant). -/
def toNat (a : H256) : Nat := valAux a 32

/-- `From<[u8; 32]> for H256`: wrap the bytes unchanged. -/
def from_bytes (h : Fin 32 → Nat) : H256 := ⟨h⟩

/-- `From<H256> for [u8; 32]`: unwrap the bytes unchanged. -/
def to_bytes (a : H256) : Fin 32 → Nat := a.bytes

/-- `get_bit` with the array bounds test of `self.0[byte_pos]` explicit. -/
def get_bit_checked (a : H256) (i : Fin 256) : Option Bool :=
  let byte_pos : Nat := i.val / BYTE_SIZE
  let bit_pos : Nat := i.val % BYTE_SIZE
  if h : byte_pos < 32 then
    some (a.bytes ⟨byte_pos, h⟩ >>> bit_pos &&& 1 != 0)
  else none

/-- `set_bit` with the array bounds test explicit. -/
def set_bit_checked (a : H256) (i : Fin 256) : Option H256 :=
  let byte_pos : Nat := i.val / BYTE_SIZE
  let bit_pos : Nat := i.val % BYTE_SIZE
  if h : byte_pos < 32 then
    some ⟨Function.update a.bytes ⟨byte_pos, h⟩
      (a.bytes ⟨byte_pos, h⟩ ||| 1 <<< bit_pos)⟩
  else none

/-- `clear_bit` with the array bounds test explicit. -/
def clear_bit_checked (a : H256) (i : Fin 256) : Option H256 :=
  let byte_pos : Nat := i.val / BYTE_SIZE
  let bit_pos : Nat := i.val % BYTE_SIZE
  if h : byte_pos < 32 then
    some ⟨Function.update a.bytes ⟨byte_pos, h⟩
      (a.bytes ⟨byte_pos, h⟩ &&& (255 ^^^ 1 <<< bit_pos))⟩
  else none

/-- `copy_bits` with the slice bound `start_byte ≤ 32` of
`target.0[start_byte..]` and the index bound `start_byte < 32` of the
masking write made explicit. -/
def copy_bits_checked (a : H256) (start : Fin 256) : Option H256 :=
  let start_byte : Nat := start.val / BYTE_SIZE
  let remain : Nat := start.val % BYTE_SIZE
  if start_byte ≤ 32 then
    let target : H256 := ⟨fun j => if start_byte ≤ j.val then a.bytes j else 0⟩
    if remain > 0 then
      if h : start_byte < 32 then
        some ⟨Function.update target.bytes ⟨start_byte, h⟩
          (target.bytes ⟨start_byte, h⟩ &&& ((255 <<< remain) % 256))⟩
      else none
    else some target
  else none

/-- `parent_path` with the `u8` overflow of `height + 1` and the bounds of
`copy_bits` made explicit. -/
def parent_path_checked (a : H256) (height : Fin 256) : Option H256 :=
  if height.val = 255 then some zero
  else if h : height.val + 1 < 256 then
    a.copy_bits_checked ⟨height.val + 1, h⟩
  else none

end H256

/-- Value with only bit 255 set (byte 31 = `0b1000_0000`). -/
def vBit255 : H256 := ⟨fun j => if j.val = 31 then 128 else 0⟩

/-- Value with bits 7 and 8 set (byte 0 = 128, byte 1 = 1). -/
def vBits78 : H256 := ⟨fun j => if j.val = 0 then 128 else if j.val = 1 then 1 else 0⟩

/-- Value with only bit 3 set (byte 0 = 8). -/
def vBit3 : H256 := ⟨fun j => if j.val = 0 then 8 else 0⟩

/-- Value with only bit 0 set (byte array `[1, 0, …, 0]`). -/
def vBit0 : H256 := ⟨fun j => if j.val = 0 then 1 else 0⟩

/-- Value from the byte array `[0, …, 0, 1]` (byte 31 = 1). -/
def vByte31 : H256 := ⟨fun j => if j.val = 31 then 1 else 0⟩

/-- Value with bits 0, 1, 2 and 5 set (byte 0 = 39). -/
def vBits0125 : H256 := ⟨fun j => if j.val = 0 then 39 else 0⟩

namespace H256

theorem eq_of_bytes_eq {a b : H256} (h : a.bytes = b.bytes) : a = b := by
  cases a; cases b; simpa using h

theorem get_bit_eq_testBit (a : H256) (i : Fin 256) :
    a.get_bit i
      = (a.bytes ⟨i.val / 8, by have := i.isLt; omega⟩).testBit (i.val % 8) := by
  simp only [get_bit, Nat.testBit, BYTE_SIZE, Nat.and_comm]

theorem zero_bytes (j : Fin 32) : zero.bytes j = 0 := rfl

theorem get_bit_zero (i : Fin 256) : zero.get_bit i = false := by
  rw [get_bit_eq_testBit]
  exact Nat.zero_testBit _

theorem testBit_of_ge {x p : Nat} (hx : x < 256) (hp : 8 ≤ p) :
    x.testBit p = false := by
  apply Nat.testBit_eq_false_of_lt
  calc x < 2 ^ 8 := hx
    _ ≤ 2 ^ p := Nat.pow_le_pow_right (by omega) hp

theorem testBit_mask (r p : Nat) :
    ((255 <<< r) % 256).testBit p = (decide (p < 8) && decide (r ≤ p)) := by
  have h256 : (256 : Nat) = 2 ^ 8 := rfl
  have h255 : (255 : Nat) = 2 ^ 8 - 1 := rfl
  rw [h256, Nat.testBit_mod_two_pow, h255, Nat.testBit_shiftLeft,
    Nat.testBit_two_pow_sub_one]
  by_cases h1 : p < 8
  · by_cases h2 : r ≤ p
    · have h3 : p - r < 8 := by omega
      simp [h1, h2, h3]
    · simp [h1, h2]
  · simp [h1]

theorem and_mask_eq_div_mul {b : Nat} (r : Nat) (hb : b < 256) :
    b &&& ((255 <<< r) % 256) = b / 2 ^ r * 2 ^ r := by
  apply Nat.eq_of_testBit_eq
  intro p
  rw [Nat.testBit_and, testBit_mask r p, Nat.mul_comm,
    ← Nat.shiftRight_eq_div_pow, Nat.testBit_mul_pow_two,
    Nat.testBit_shiftRight]
  by_cases h1 : r ≤ p
  · have hrp : r + (p - r) = p := by omega
    rw [hrp]
    by_cases h2 : p < 8
    · simp [h1, h2]
    · have hf : b.testBit p = false := testBit_of_ge hb (by omega)
      simp [hf]
  · simp [h1]

theorem set_bit_bytes (a : H256) (i : Fin 256) :
    (a.set_bit i).bytes
      = Function.update a.bytes ⟨i.val / 8, by have := i.isLt; omega⟩
          (a.bytes ⟨i.val / 8, by have := i.isLt; omega⟩ ||| 1 <<< (i.val % 8)) :=
  rfl

theorem clear_bit_bytes (a : H256) (i : Fin 256) :
    (a.clear_bit i).bytes
      = Function.update a.bytes ⟨i.val / 8, by have := i.isLt; omega⟩
          (a.bytes ⟨i.val / 8, by have := i.isLt; omega⟩
            &&& (255 ^^^ 1 <<< (i.val % 8))) :=
  rfl

theorem get_bit_set_bit (a : H256) (i j : Fin 256) :
    (a.set_bit i).get_bit j = (decide (j = i) || a.get_bit j) := by
  rw [get_bit_eq_testBit, get_bit_eq_testBit, set_bit_bytes,
    Function.update_apply]
  split_ifs with hb
  · have hval : j.val / 8 = i.val / 8 := by
      simpa [Fin.ext_iff] using hb
    have hd : decide (j = i) = decide (i.val % 8 = j.val % 8) := by
      rw [decide_eq_decide, Fin.ext_iff]
      omega
    have hbytes : a.bytes ⟨j.val / 8, by have := j.isLt; omega⟩
        = a.bytes ⟨i.val / 8, by have := i.isLt; omega⟩ :=
      congrArg a.bytes (Fin.ext hval)
    rw [Nat.shiftLeft_eq, one_mul, Nat.testBit_or, Nat.testBit_two_pow,
      hd, hbytes, Bool.or_comm]
  · have hne : j ≠ i := by
      intro hji
      apply hb
      rw [Fin.ext_iff] at hji ⊢
      simp [hji]
    simp [hne]

theorem get_bit_clear_bit (a : H256) (i j : Fin 256) :
    (a.clear_bit i).get_bit j = (!decide (j = i) && a.get_bit j) := by
  rw [get_bit_eq_testBit, get_bit_eq_testBit, clear_bit_bytes,
    Function.update_apply]
  split_ifs with hb
  · have hval : j.val / 8 = i.val / 8 := by
      simpa [Fin.ext_iff] using hb
    have hd : decide (j = i) = decide (i.val % 8 = j.val % 8) := by
      rw [decide_eq_decide, Fin.ext_iff]
      omega
    have hbytes : a.bytes ⟨j.val / 8, by have := j.isLt; omega⟩
        = a.bytes ⟨i.val / 8, by have := i.isLt; omega⟩ :=
      congrArg a.bytes (Fin.ext hval)
    have h255 : (255 : Nat) = 2 ^ 8 - 1 := rfl
    have hj8 : j.val % 8 < 8 := by omega
    rw [Nat.shiftLeft_eq, one_mul, Nat.testBit_and, h255, Nat.testBit_xor,
      Nat.testBit_two_pow_sub_one, Nat.testBit_two_pow, hd, hbytes,
      decide_eq_true hj8]
    cases hx : (a.bytes ⟨i.val / 8, by have := i.isLt; omega⟩).testBit (j.val % 8)
      <;> cases hy : decide (i.val % 8 = j.val % 8) <;> simp_all
  · have hne : j ≠ i := by
      intro hji
      apply hb
      rw [Fin.ext_iff] at hji ⊢
      simp [hji]
    simp [hne]

end H256

namespace H256

theorem mk_bytes (f : Fin 32 → Nat) : (H256.mk f).bytes = f := rfl

theorem copy_bits_bytes_lo (a : H256) (s : Fin 256) (j : Fin 32)
    (hlt : j.val < s.val / 8) : (a.copy_bits s).bytes j = 0 := by
  unfold copy_bits
  simp only [BYTE_SIZE]
  have hne : j ≠ (⟨s.val / 8, by have := s.isLt; omega⟩ : Fin 32) := by
    intro hc
    have hv : j.val = s.val / 8 := congrArg Fin.val hc
    omega
  by_cases hr : 0 < s.val % 8
  · rw [if_pos hr]
    simp only [mk_bytes]
    rw [Function.update_apply, if_neg hne]
    show (if s.val / 8 ≤ j.val then a.bytes j else 0) = 0
    rw [if_neg (by omega)]
  · rw [if_neg hr]
    simp only [mk_bytes]
    show (if s.val / 8 ≤ j.val then a.bytes j else 0) = 0
    rw [if_neg (by omega)]

theorem copy_bits_bytes_hi (a : H256) (s : Fin 256) (j : Fin 32)
    (hgt : s.val / 8 < j.val) : (a.copy_bits s).bytes j = a.bytes j := by
  unfold copy_bits
  simp only [BYTE_SIZE]
  have hne : j ≠ (⟨s.val / 8, by have := s.isLt; omega⟩ : Fin 32) := by
    intro hc
    have hv : j.val = s.val / 8 := congrArg Fin.val hc
    omega
  by_cases hr : 0 < s.val % 8
  · rw [if_pos hr]
    simp only [mk_bytes]
    rw [Function.update_apply, if_neg hne]
    show (if s.val / 8 ≤ j.val then a.bytes j else 0) = a.bytes j
    rw [if_pos (by omega)]
  · rw [if_neg hr]
    simp only [mk_bytes]
    show (if s.val / 8 ≤ j.val then a.bytes j else 0) = a.bytes j
    rw [if_pos (by omega)]

theorem copy_bits_bytes_eq (a : H256) (s : Fin 256) (j : Fin 32)
    (hj : j.val = s.val / 8) :
    (a.copy_bits s).bytes j
      = if 0 < s.val % 8 then a.bytes j &&& ((255 <<< (s.val % 8)) % 256)
        else a.bytes j := by
  unfold copy_bits
  simp only [BYTE_SIZE]
  have hjeq : j = (⟨s.val / 8, by have := s.isLt; omega⟩ : Fin 32) :=
    Fin.ext hj
  by_cases hr : 0 < s.val % 8
  · rw [if_pos hr, if_pos hr]
    simp only [mk_bytes]
    rw [Function.update_apply, if_pos hjeq]
    show (if s.val / 8 ≤ s.val / 8 then
        a.bytes ⟨s.val / 8, by have := s.isLt; omega⟩ else 0) &&& _ = _
    rw [if_pos (le_refl _)]
    exact congrArg (fun x => a.bytes x &&& ((255 <<< (s.val % 8)) % 256)) hjeq.symm
  · rw [if_neg hr, if_neg hr]
    simp only [mk_bytes]
    show (if s.val / 8 ≤ j.val then a.bytes j else 0) = a.bytes j
    rw [if_pos (by omega)]

theorem get_bit_copy_bits (a : H256) (s i : Fin 256) :
    (a.copy_bits s).get_bit i = (decide (s.val ≤ i.val) && a.get_bit i) := by
  rw [get_bit_eq_testBit, get_bit_eq_testBit]
  rcases Nat.lt_trichotomy (i.val / 8) (s.val / 8) with hlt | heq | hgt
  · rw [copy_bits_bytes_lo a s _ hlt, Nat.zero_testBit]
    have hn : ¬ s.val ≤ i.val := by omega
    simp [hn]
  · rw [copy_bits_bytes_eq a s _ heq]
    by_cases hr : 0 < s.val % 8
    · rw [if_pos hr, Nat.testBit_and, testBit_mask]
      have h8 : i.val % 8 < 8 := by omega
      have hdec : decide (s.val % 8 ≤ i.val % 8) = decide (s.val ≤ i.val) := by
        rw [decide_eq_decide]
        omega
      rw [decide_eq_true h8, Bool.true_and, hdec, Bool.and_comm]
    · rw [if_neg hr]
      have hs : s.val ≤ i.val := by omega
      simp [hs]
  · rw [copy_bits_bytes_hi a s _ hgt]
    have hs : s.val ≤ i.val := by omega
    simp [hs]

theorem get_bit_parent_path (a : H256) (h i : Fin 256) :
    (a.parent_path h).get_bit i = (decide (h.val < i.val) && a.get_bit i) := by
  unfold parent_path
  split_ifs with h255
  · rw [get_bit_zero]
    have hn : ¬ h.val < i.val := by have := i.isLt; omega
    simp [hn]
  · rw [get_bit_copy_bits]
    congr 1

theorem parent_path_255 (a : H256) : a.parent_path 255 = zero := by
  unfold parent_path
  rfl

theorem parent_path_of_lt (a : H256) (h : Fin 256) (hlt : h.val < 255) :
    a.parent_path h = a.copy_bits ⟨h.val + 1, by omega⟩ := by
  unfold parent_path
  rw [dif_neg (by omega)]

end H256

namespace H256

theorem forkAux_agree_eq_zero (a b : H256) (n : Nat)
    (h : ∀ j : Fin 256, j.val < n → a.get_bit j = b.get_bit j) :
    forkAux a b n = ⟨0, by omega⟩ := by
  induction n with
  | zero => rfl
  | succ n ih =>
    unfold forkAux
    by_cases hn : n < 256
    · rw [dif_pos hn]
      have heq : a.get_bit ⟨n, hn⟩ = b.get_bit ⟨n, hn⟩ :=
        h ⟨n, hn⟩ (show n < n + 1 by omega)
      rw [heq]
      simp only [bne_self_eq_false, Bool.false_eq_true, if_false]
      exact ih (fun j hj => h j (by omega))
    · rw [dif_neg hn]
      exact ih (fun j hj => h j (by omega))

theorem forkAux_agree_above (a b : H256) (n : Nat) (j : Fin 256)
    (hjn : j.val < n) (hj : (forkAux a b n).val < j.val) :
    a.get_bit j = b.get_bit j := by
  induction n with
  | zero => omega
  | succ n ih =>
    unfold forkAux at hj
    by_cases hn : n < 256
    · rw [dif_pos hn] at hj
      by_cases hd : (a.get_bit ⟨n, hn⟩ != b.get_bit ⟨n, hn⟩) = true
      · rw [if_pos hd] at hj
        have hj2 : n < j.val := hj
        omega
      · rw [if_neg hd] at hj
        rcases Nat.lt_or_ge j.val n with hjn2 | hge
        · exact ih hjn2 hj
        · have hje : j = ⟨n, hn⟩ := Fin.ext (show j.val = n by omega)
          rw [hje]
          simpa using hd
    · rw [dif_neg hn] at hj
      have hj2 : j.val < n := by omega
      exact ih hj2 hj

theorem forkAux_diff (a b : H256) (n : Nat)
    (hex : ∃ j : Fin 256, j.val < n ∧ a.get_bit j ≠ b.get_bit j) :
    a.get_bit (forkAux a b n) ≠ b.get_bit (forkAux a b n) := by
  induction n with
  | zero =>
    obtain ⟨j, hj, _⟩ := hex
    omega
  | succ n ih =>
    unfold forkAux
    by_cases hn : n < 256
    · rw [dif_pos hn]
      by_cases hd : (a.get_bit ⟨n, hn⟩ != b.get_bit ⟨n, hn⟩) = true
      · rw [if_pos hd]
        simpa [bne_iff_ne] using hd
      · rw [if_neg hd]
        apply ih
        obtain ⟨j, hjn, hne⟩ := hex
        refine ⟨j, ?_, hne⟩
        have hx : a.get_bit ⟨n, hn⟩ = b.get_bit ⟨n, hn⟩ := by simpa using hd
        rcases Nat.lt_or_ge j.val n with h1 | h2
        · exact h1
        · exfalso
          have hje : j = ⟨n, hn⟩ := Fin.ext (show j.val = n by omega)
          rw [hje] at hne
          exact hne hx
    · rw [dif_neg hn]
      apply ih
      obtain ⟨j, hjn, hne⟩ := hex
      exact ⟨j, by have := j.isLt; omega, hne⟩

theorem forkAux_symm (a b : H256) (n : Nat) : forkAux a b n = forkAux b a n := by
  induction n with
  | zero => rfl
  | succ n ih =>
    unfold forkAux
    by_cases hn : n < 256
    · rw [dif_pos hn, dif_pos hn]
      by_cases hd : (a.get_bit ⟨n, hn⟩ != b.get_bit ⟨n, hn⟩) = true
      · have hd2 : (b.get_bit ⟨n, hn⟩ != a.get_bit ⟨n, hn⟩) = true := by
          simp only [bne_iff_ne] at hd ⊢
          exact hd.symm
        rw [if_pos hd, if_pos hd2]
      · have hd2 : ¬ (b.get_bit ⟨n, hn⟩ != a.get_bit ⟨n, hn⟩) = true := by
          simp only [bne_iff_ne] at hd ⊢
          intro hcon
          exact hd hcon.symm
        rw [if_neg hd, if_neg hd2, ih]
    · rw [dif_neg hn, dif_neg hn, ih]

end H256

namespace H256

theorem valAux_lt (a : H256) (ha : a.Wf) (n : Nat) : valAux a n < 256 ^ n := by
  induction n with
  | zero => simp [valAux]
  | succ n ih =>
    unfold valAux
    by_cases hn : n < 32
    · rw [dif_pos hn]
      have hb : a.bytes ⟨n, hn⟩ < 256 := ha ⟨n, hn⟩
      calc a.bytes ⟨n, hn⟩ * 256 ^ n + valAux a n
          < a.bytes ⟨n, hn⟩ * 256 ^ n + 256 ^ n := by omega
        _ = (a.bytes ⟨n, hn⟩ + 1) * 256 ^ n := by ring
        _ ≤ 256 * 256 ^ n := Nat.mul_le_mul_right _ (by omega)
        _ = 256 ^ (n + 1) := by ring
    · rw [dif_neg hn]
      calc valAux a n < 256 ^ n := ih
        _ ≤ 256 ^ (n + 1) := Nat.pow_le_pow_right (by omega) (by omega)

theorem cmpAux_eq_iff (a b : H256) (n : Nat) :
    cmpAux a b n = Ordering.eq
      ↔ ∀ j : Fin 32, j.val < n → a.bytes j = b.bytes j := by
  induction n with
  | zero => simp [cmpAux]
  | succ n ih =>
    unfold cmpAux
    by_cases hn : n < 32
    · rw [dif_pos hn]
      by_cases h1 : a.bytes ⟨n, hn⟩ < b.bytes ⟨n, hn⟩
      · rw [if_pos h1]
        constructor
        · intro hc
          exact Ordering.noConfusion hc
        · intro hall
          have := hall ⟨n, hn⟩ (show n < n + 1 by omega)
          omega
      · rw [if_neg h1]
        by_cases h2 : b.bytes ⟨n, hn⟩ < a.bytes ⟨n, hn⟩
        · rw [if_pos h2]
          constructor
          · intro hc
            exact Ordering.noConfusion hc
          · intro hall
            have := hall ⟨n, hn⟩ (show n < n + 1 by omega)
            omega
        · rw [if_neg h2, ih]
          have hbe : a.bytes ⟨n, hn⟩ = b.bytes ⟨n, hn⟩ := by omega
          constructor
          · intro hall j hj
            rcases Nat.lt_or_ge j.val n with hlt | hge
            · exact hall j hlt
            · have hje : j = ⟨n, hn⟩ := Fin.ext (show j.val = n by omega)
              rw [hje]
              exact hbe
          · intro hall j hj
            exact hall j (by omega)
    · rw [dif_neg hn, ih]
      constructor
      · intro hall j hj
        exact hall j (by have := j.isLt; omega)
      · intro hall j hj
        exact hall j (by omega)

theorem cmpAux_lt_iff (a b : H256) (ha : a.Wf) (hb : b.Wf) (n : Nat) :
    cmpAux a b n = Ordering.lt ↔ valAux a n < valAux b n := by
  induction n with
  | zero => simp [cmpAux, valAux]
  | succ n ih =>
    unfold cmpAux valAux
    by_cases hn : n < 32
    · rw [dif_pos hn, dif_pos hn, dif_pos hn]
      by_cases h1 : a.bytes ⟨n, hn⟩ < b.bytes ⟨n, hn⟩
      · rw [if_pos h1]
        constructor
        · intro _
          calc a.bytes ⟨n, hn⟩ * 256 ^ n + valAux a n
              < a.bytes ⟨n, hn⟩ * 256 ^ n + 256 ^ n := by
                have := valAux_lt a ha n
                omega
            _ = (a.bytes ⟨n, hn⟩ + 1) * 256 ^ n := by ring
            _ ≤ b.bytes ⟨n, hn⟩ * 256 ^ n := Nat.mul_le_mul_right _ (by omega)
            _ ≤ b.bytes ⟨n, hn⟩ * 256 ^ n + valAux b n := Nat.le_add_right _ _
        · intro _
          rfl
      · rw [if_neg h1]
        by_cases h2 : b.bytes ⟨n, hn⟩ < a.bytes ⟨n, hn⟩
        · rw [if_pos h2]
          constructor
          · intro hc
            exact Ordering.noConfusion hc
          · intro hlt
            exfalso
            have hgt : b.bytes ⟨n, hn⟩ * 256 ^ n + valAux b n
                < a.bytes ⟨n, hn⟩ * 256 ^ n + valAux a n := by
              calc b.bytes ⟨n, hn⟩ * 256 ^ n + valAux b n
                  < b.bytes ⟨n, hn⟩ * 256 ^ n + 256 ^ n := by
                    have := valAux_lt b hb n
                    omega
                _ = (b.bytes ⟨n, hn⟩ + 1) * 256 ^ n := by ring
                _ ≤ a.bytes ⟨n, hn⟩ * 256 ^ n := Nat.mul_le_mul_right _ (by omega)
                _ ≤ a.bytes ⟨n, hn⟩ * 256 ^ n + valAux a n := Nat.le_add_right _ _
            omega
        · rw [if_neg h2, ih]
          have hbe : a.bytes ⟨n, hn⟩ = b.bytes ⟨n, hn⟩ := by omega
          rw [hbe]
          omega
    · rw [dif_neg hn, dif_neg hn, dif_neg hn]
      exact ih

theorem cmpAux_swap (a b : H256) (n : Nat) :
    cmpAux b a n = (cmpAux a b n).swap := by
  induction n with
  | zero => rfl
  | succ n ih =>
    unfold cmpAux
    by_cases hn : n < 32
    · rw [dif_pos hn, dif_pos hn]
      by_cases hP : a.bytes ⟨n, hn⟩ < b.bytes ⟨n, hn⟩
      · have hQ : ¬ b.bytes ⟨n, hn⟩ < a.bytes ⟨n, hn⟩ := by omega
        simp [hP, hQ, Ordering.swap]
      · by_cases hQ : b.bytes ⟨n, hn⟩ < a.bytes ⟨n, hn⟩
        · simp [hP, hQ, Ordering.swap]
        · simp [hP, hQ, ih]
    · rw [dif_neg hn, dif_neg hn]
      exact ih

theorem cmp_eq_iff (a b : H256) : cmp a b = Ordering.eq ↔ a = b := by
  unfold cmp
  rw [cmpAux_eq_iff]
  constructor
  · intro hall
    apply eq_of_bytes_eq
    funext j
    exact hall j j.isLt
  · intro he j hj
    rw [he]

theorem cmp_lt_iff (a b : H256) (ha : a.Wf) (hb : b.Wf) :
    cmp a b = Ordering.lt ↔ a.toNat < b.toNat :=
  cmpAux_lt_iff a b ha hb 32

theorem cmp_swap (a b : H256) : cmp b a = (cmp a b).swap :=
  cmpAux_swap a b 32

theorem cmp_gt_iff (a b : H256) (ha : a.Wf) (hb : b.Wf) :
    cmp a b = Ordering.gt ↔ b.toNat < a.toNat := by
  constructor
  · intro h
    have hba : cmp b a = Ordering.lt := by
      rw [cmp_swap, h]
      rfl
    exact (cmp_lt_iff b a hb ha).mp hba
  · intro h
    have hba : cmp b a = Ordering.lt := (cmp_lt_iff b a hb ha).mpr h
    have := cmp_swap a b
    rw [hba] at this
    cases hc : cmp a b <;> rw [hc] at this <;> first | rfl | exact Ordering.noConfusion this

theorem valAux_le_of_bytes_le (a b : H256)
    (h : ∀ j : Fin 32, a.bytes j ≤ b.bytes j) (n : Nat) :
    valAux a n ≤ valAux b n := by
  induction n with
  | zero => exact Nat.le_refl _
  | succ n ih =>
    unfold valAux
    by_cases hn : n < 32
    · rw [dif_pos hn, dif_pos hn]
      have hb := h ⟨n, hn⟩
      have hmul : a.bytes ⟨n, hn⟩ * 256 ^ n ≤ b.bytes ⟨n, hn⟩ * 256 ^ n :=
        Nat.mul_le_mul_right _ hb
      omega
    · rw [dif_neg hn, dif_neg hn]
      exact ih

theorem copy_bits_bytes_le (a : H256) (s : Fin 256) (j : Fin 32) :
    (a.copy_bits s).bytes j ≤ a.bytes j := by
  rcases Nat.lt_trichotomy j.val (s.val / 8) with h | h | h
  · rw [copy_bits_bytes_lo a s j h]
    exact Nat.zero_le _
  · rw [copy_bits_bytes_eq a s j h]
    split_ifs
    · exact Nat.and_le_left
    · exact Nat.le_refl _
  · rw [copy_bits_bytes_hi a s j h]

theorem copy_bits_wf (a : H256) (ha : a.Wf) (s : Fin 256) :
    (a.copy_bits s).Wf :=
  fun j => Nat.lt_of_le_of_lt (copy_bits_bytes_le a s j) (ha j)

theorem zero_wf : (zero : H256).Wf := by
  intro j
  show (0 : Nat) < 256
  omega

theorem valAux_zero (n : Nat) : valAux zero n = 0 := by
  induction n with
  | zero => rfl
  | succ n ih =>
    unfold valAux
    by_cases hn : n < 32
    · rw [dif_pos hn]
      rw [zero_bytes, ih]
      omega
    · rw [dif_neg hn]
      exact ih

theorem copy_bits_id (a : H256) (s : Fin 256) (hs : s.val = 0) :
    a.copy_bits s = a := by
  apply eq_of_bytes_eq
  funext j
  rcases Nat.eq_zero_or_pos j.val with hj | hj
  · rw [copy_bits_bytes_eq a s j (by omega)]
    rw [if_neg (by omega)]
  · rw [copy_bits_bytes_hi a s j (by omega)]

end H256

namespace H256

theorem get_bit_checked_eq (a : H256) (i : Fin 256) :
    a.get_bit_checked i = some (a.get_bit i) := by
  have hby : i.val / BYTE_SIZE < 32 := by
    show i.val / 8 < 32
    have := i.isLt
    omega
  simp only [get_bit_checked]
  rw [dif_pos hby]
  rfl

theorem set_bit_checked_eq (a : H256) (i : Fin 256) :
    a.set_bit_checked i = some (a.set_bit i) := by
  have hby : i.val / BYTE_SIZE < 32 := by
    show i.val / 8 < 32
    have := i.isLt
    omega
  simp only [set_bit_checked]
  rw [dif_pos hby]
  rfl

theorem clear_bit_checked_eq (a : H256) (i : Fin 256) :
    a.clear_bit_checked i = some (a.clear_bit i) := by
  have hby : i.val / BYTE_SIZE < 32 := by
    show i.val / 8 < 32
    have := i.isLt
    omega
  simp only [clear_bit_checked]
  rw [dif_pos hby]
  rfl

theorem copy_bits_checked_eq (a : H256) (s : Fin 256) :
    a.copy_bits_checked s = some (a.copy_bits s) := by
  have h1 : s.val / BYTE_SIZE ≤ 32 := by
    show s.val / 8 ≤ 32
    have := s.isLt
    omega
  have h2 : s.val / BYTE_SIZE < 32 := by
    show s.val / 8 < 32
    have := s.isLt
    omega
  simp only [copy_bits_checked, copy_bits]
  rw [if_pos h1]
  by_cases hr : s.val % BYTE_SIZE > 0
  · rw [if_pos hr, if_pos hr, dif_pos h2]
  · rw [if_neg hr, if_neg hr]

theorem parent_path_checked_eq (a : H256) (h : Fin 256) :
    a.parent_path_checked h = some (a.parent_path h) := by
  unfold parent_path_checked parent_path
  by_cases h255 : h.val = 255
  · rw [if_pos h255, dif_pos h255]
  · rw [if_neg h255, dif_neg h255,
      dif_pos (show h.val + 1 < 256 by have := h.isLt; omega)]
    rw [copy_bits_checked_eq]

end H256

namespace H256

/-- C1: `copy_bits start` keeps exactly the bits at positions at least
`start`: bit `i` of the result is set iff `start ≤ i` and bit `i` of the
input is set; bytes below the byte containing `start` are zero, the byte
containing `start` keeps its high bits with its low `start % 8` bits
cleared, and bytes above are copied unchanged. -/
theorem copy_bits_spec (v : H256) (hv : v.Wf) (start i : Fin 256) (j : Fin 32) :
    (v.copy_bits start).get_bit i = (decide (start.val ≤ i.val) && v.get_bit i)
    ∧ (j.val < start.val / 8 → (v.copy_bits start).bytes j = 0)
    ∧ (j.val = start.val / 8 →
        (v.copy_bits start).bytes j
          = v.bytes j / 2 ^ (start.val % 8) * 2 ^ (start.val % 8))
    ∧ (start.val / 8 < j.val → (v.copy_bits start).bytes j = v.bytes j) := by
  refine ⟨get_bit_copy_bits v start i, copy_bits_bytes_lo v start j, ?_,
    copy_bits_bytes_hi v start j⟩
  intro hj
  rw [copy_bits_bytes_eq v start j hj]
  by_cases hr : 0 < start.val % 8
  · rw [if_pos hr, and_mask_eq_div_mul _ (hv j)]
  · rw [if_neg hr]
    have h0 : start.val % 8 = 0 := by omega
    rw [h0]
    simp

/-- Concrete instance of the C1 theorem: on the value with bits 7 and 8
set, `copy_bits 8` clears bit 7 and keeps bit 8, `copy_bits 9` clears
both. -/
theorem copy_bits_spec_witness :
    vBits78.Wf
    ∧ (vBits78.copy_bits 8).get_bit 7 = false
    ∧ (vBits78.copy_bits 8).get_bit 8 = true
    ∧ (vBits78.copy_bits 9).get_bit 7 = false
    ∧ (vBits78.copy_bits 9).get_bit 8 = false := by
  have hw : vBits78.Wf := by decide
  refine ⟨hw, ?_, ?_, ?_, ?_⟩
  · rw [(copy_bits_spec vBits78 hw 8 7 0).1]
    decide
  · rw [(copy_bits_spec vBits78 hw 8 8 0).1]
    decide
  · rw [(copy_bits_spec vBits78 hw 9 7 0).1]
    decide
  · rw [(copy_bits_spec vBits78 hw 9 8 0).1]
    decide

/-- C2: `fork_height` returns the highest bit position at which the two
values differ — every position above the result agrees, and when some
position differs the two values differ at the result itself — and
returns 0 on inputs that agree everywhere. -/
theorem fork_height_spec (a b : H256) :
    (∀ j : Fin 256, (a.fork_height b).val < j.val → a.get_bit j = b.get_bit j)
    ∧ ((∀ j : Fin 256, a.get_bit j = b.get_bit j) → a.fork_height b = 0)
    ∧ ((∃ j : Fin 256, a.get_bit j ≠ b.get_bit j) →
        a.get_bit (a.fork_height b) ≠ b.get_bit (a.fork_height b)) := by
  refine ⟨?_, ?_, ?_⟩
  · intro j hj
    exact forkAux_agree_above a b 256 j j.isLt hj
  · intro h
    exact forkAux_agree_eq_zero a b 256 (fun j _ => h j)
  · intro ⟨j, hne⟩
    exact forkAux_diff a b 256 ⟨j, j.isLt, hne⟩

/-- Concrete instance of the C2 theorem: only-bit-255 against zero forks
at 255, only-bit-3 against zero forks at 3, and identical inputs or
inputs differing only at bit 0 both give 0. -/
theorem fork_height_spec_witness :
    vBit255.fork_height zero = 255
    ∧ vBit3.fork_height zero = 3
    ∧ vBit0.fork_height zero = 0
    ∧ zero.fork_height zero = 0 :=
  ⟨by decide, by decide, by decide,
    (fork_height_spec zero zero).2.1 (fun j => rfl)⟩

/-- C3: `parent_path height` clears every bit at a position at most
`height` and preserves every bit above it; at height 255 the result is
the zero constant, and below 255 it is computed as
`copy_bits (height + 1)`. -/
theorem parent_path_spec (v : H256) (height i : Fin 256) :
    (v.parent_path height).get_bit i
        = (decide (height.val < i.val) && v.get_bit i)
    ∧ v.parent_path 255 = zero
    ∧ (∀ hlt : height.val < 255,
        v.parent_path height = v.copy_bits ⟨height.val + 1, by omega⟩) :=
  ⟨get_bit_parent_path v height i, parent_path_255 v,
    fun hlt => parent_path_of_lt v height hlt⟩

/-- Concrete instance of the C3 theorem: on the value with bits 0,1,2,5
set, `parent_path 2` keeps bit 5 and clears bit 2, is `copy_bits 3`, and
`parent_path 255` is zero. -/
theorem parent_path_spec_witness :
    (vBits0125.parent_path 2).get_bit 5 = true
    ∧ (vBits0125.parent_path 2).get_bit 2 = false
    ∧ vBits0125.parent_path 255 = zero
    ∧ vBits0125.parent_path 2 = vBits0125.copy_bits 3 := by
  refine ⟨?_, ?_, (parent_path_spec vBits0125 2 0).2.1, ?_⟩
  · rw [(parent_path_spec vBits0125 2 5).1]
    decide
  · rw [(parent_path_spec vBits0125 2 2).1]
    decide
  · exact (parent_path_spec vBits0125 2 0).2.2 (by decide)

/-- C4: `set_bit i` makes `get_bit i` true and leaves every other bit
unchanged; `clear_bit i` makes `get_bit i` false and leaves every other
bit unchanged (bit `i` living in byte `i / 8` at intra-byte position
`i % 8`). -/
theorem set_clear_bit_frame (v : H256) (i : Fin 256) :
    (v.set_bit i).get_bit i = true
    ∧ (∀ j : Fin 256, j ≠ i → (v.set_bit i).get_bit j = v.get_bit j)
    ∧ (v.clear_bit i).get_bit i = false
    ∧ (∀ j : Fin 256, j ≠ i → (v.clear_bit i).get_bit j = v.get_bit j) := by
  refine ⟨?_, ?_, ?_, ?_⟩
  · rw [get_bit_set_bit]
    simp
  · intro j hj
    rw [get_bit_set_bit]
    simp [hj]
  · rw [get_bit_clear_bit]
    simp
  · intro j hj
    rw [get_bit_clear_bit]
    simp [hj]

/-- Concrete instance of the C4 theorem at bits 5 and 7. -/
theorem set_clear_bit_frame_witness :
    (zero.set_bit 5).get_bit 5 = true
    ∧ (zero.set_bit 5).get_bit 4 = zero.get_bit 4
    ∧ (vBits78.clear_bit 7).get_bit 7 = false
    ∧ (vBits78.clear_bit 7).get_bit 8 = vBits78.get_bit 8 :=
  ⟨(set_clear_bit_frame zero 5).1,
    (set_clear_bit_frame zero 5).2.1 4 (by decide),
    (set_clear_bit_frame vBits78 7).2.2.1,
    (set_clear_bit_frame vBits78 7).2.2.2 8 (by decide)⟩

/-- C5: `cmp` is a strict total order agreeing with the 256-bit integer
reading in which byte 31 is most significant: `eq` characterizes
equality, `lt` and `gt` characterize the numeric order, comparison is
irreflexive and transitive, exactly one of the three outcomes holds, and
the byte array with byte 31 = 1 compares greater than the one with
byte 0 = 1. -/
theorem cmp_strict_total_order (a b c : H256)
    (ha : a.Wf) (hb : b.Wf) (hc : c.Wf) :
    (cmp a b = Ordering.eq ↔ a = b)
    ∧ (cmp a b = Ordering.lt ↔ a.toNat < b.toNat)
    ∧ (cmp a b = Ordering.gt ↔ b.toNat < a.toNat)
    ∧ cmp a a = Ordering.eq
    ∧ (cmp a b = Ordering.lt → cmp b c = Ordering.lt → cmp a c = Ordering.lt)
    ∧ (cmp a b = Ordering.lt ∨ a = b ∨ cmp a b = Ordering.gt)
    ∧ ¬ (cmp a b = Ordering.lt ∧ a = b)
    ∧ ¬ (cmp a b = Ordering.gt ∧ a = b)
    ∧ ¬ (cmp a b = Ordering.lt ∧ cmp a b = Ordering.gt)
    ∧ cmp vByte31 vBit0 = Ordering.gt := by
  refine ⟨cmp_eq_iff a b, cmp_lt_iff a b ha hb, cmp_gt_iff a b ha hb,
    (cmp_eq_iff a a).mpr rfl, ?_, ?_, ?_, ?_, ?_, by decide⟩
  · intro h1 h2
    exact (cmp_lt_iff a c ha hc).mpr
      (Nat.lt_trans ((cmp_lt_iff a b ha hb).mp h1) ((cmp_lt_iff b c hb hc).mp h2))
  · cases hx : cmp a b
    · exact Or.inl rfl
    · exact Or.inr (Or.inl ((cmp_eq_iff a b).mp hx))
    · exact Or.inr (Or.inr rfl)
  · rintro ⟨h1, h2⟩
    rw [(cmp_eq_iff a b).mpr h2] at h1
    exact Ordering.noConfusion h1
  · rintro ⟨h1, h2⟩
    rw [(cmp_eq_iff a b).mpr h2] at h1
    exact Ordering.noConfusion h1
  · rintro ⟨h1, h2⟩
    rw [h1] at h2
    exact Ordering.noConfusion h2

/-- Concrete instance of the C5 theorem on well-formed values, including
the byte-31-dominates example. -/
theorem cmp_strict_total_order_witness :
    vByte31.Wf ∧ vBit0.Wf
    ∧ cmp vByte31 vBit0 = Ordering.gt
    ∧ cmp vBit0 vBit0 = Ordering.eq := by
  have h1 : vByte31.Wf := by decide
  have h2 : vBit0.Wf := by decide
  have h3 : zero.Wf := by decide
  refine ⟨h1, h2,
    (cmp_strict_total_order vByte31 vBit0 zero h1 h2 h3).2.2.2.2.2.2.2.2.2,
    (cmp_strict_total_order vBit0 vBit0 zero h2 h2 h3).2.2.2.1⟩

/-- C6: `zero` is the all-bits-clear constant: it is `is_zero`, a value
is `is_zero` exactly when it equals `zero`, and every bit of `zero` is
clear. -/
theorem zero_spec :
    zero.is_zero = true
    ∧ (∀ v : H256, v.is_zero = true ↔ v = zero)
    ∧ (∀ i : Fin 256, zero.get_bit i = false) := by
  refine ⟨by decide, ?_, get_bit_zero⟩
  intro v
  show decide (v = ZERO) = true ↔ v = zero
  rw [decide_eq_true_eq]
  exact Iff.rfl

/-- Concrete instance of the C6 theorem. -/
theorem zero_spec_witness :
    zero.is_zero = true
    ∧ (vBit0.is_zero = true ↔ vBit0 = zero)
    ∧ zero.get_bit 17 = false :=
  ⟨zero_spec.1, zero_spec.2.1 vBit0, zero_spec.2.2 17⟩

/-- C7: conversion between raw 32-byte arrays and `H256` is a lossless
bit-for-bit round trip in both directions; no byte pattern is rejected
or transformed. -/
theorem bytes_roundtrip :
    (∀ h : Fin 32 → Nat, to_bytes (from_bytes h) = h)
    ∧ (∀ v : H256, from_bytes (to_bytes v) = v) := by
  refine ⟨fun h => rfl, fun v => ?_⟩
  cases v
  rfl

/-- C8: every operation is total over its domain — the bounds-checked
embeddings of the indexing operations always return `some`, agreeing
with the unchecked definitions, and the remaining operations are plain
total functions with in-range results. -/
theorem ops_total (a b : H256) (i : Fin 256) :
    a.get_bit_checked i = some (a.get_bit i)
    ∧ a.set_bit_checked i = some (a.set_bit i)
    ∧ a.clear_bit_checked i = some (a.clear_bit i)
    ∧ a.copy_bits_checked i = some (a.copy_bits i)
    ∧ a.parent_path_checked i = some (a.parent_path i)
    ∧ a.is_right i = a.get_bit i
    ∧ a.as_slice.length = 32
    ∧ (a.fork_height b).val < 256 :=
  ⟨get_bit_checked_eq a i, set_bit_checked_eq a i, clear_bit_checked_eq a i,
    copy_bits_checked_eq a i, parent_path_checked_eq a i, rfl,
    by simp [as_slice], (a.fork_height b).isLt⟩

/-- C9: `fork_height` is symmetric in its two arguments. -/
theorem fork_height_symm (a b : H256) : a.fork_height b = b.fork_height a :=
  forkAux_symm a b 256

/-- C10: `copy_bits` never increases a value in the `Ord` order, hence
`parent_path` never does either, and `copy_bits 0` is the identity. -/
theorem copy_bits_le (v : H256) (hv : v.Wf) (s height : Fin 256) :
    cmp (v.copy_bits s) v ≠ Ordering.gt
    ∧ cmp (v.parent_path height) v ≠ Ordering.gt
    ∧ v.copy_bits 0 = v := by
  have hkey : ∀ t : Fin 256, cmp (v.copy_bits t) v ≠ Ordering.gt := by
    intro t hgt
    have hle : (v.copy_bits t).toNat ≤ v.toNat :=
      valAux_le_of_bytes_le _ _ (copy_bits_bytes_le v t) 32
    have := (cmp_gt_iff (v.copy_bits t) v (copy_bits_wf v hv t) hv).mp hgt
    omega
  refine ⟨hkey s, ?_, copy_bits_id v 0 rfl⟩
  unfold parent_path
  split_ifs with h255
  · intro hgt
    have h0 : (zero : H256).toNat = 0 := valAux_zero 32
    have := (cmp_gt_iff zero v zero_wf hv).mp hgt
    omega
  · exact hkey _

/-- Concrete instance of the C10 theorem on the value with bits 7,8
set. -/
theorem copy_bits_le_witness :
    vBits78.Wf
    ∧ cmp (vBits78.copy_bits 9) vBits78 ≠ Ordering.gt
    ∧ cmp (vBits78.parent_path 200) vBits78 ≠ Ordering.gt
    ∧ vBits78.copy_bits 0 = vBits78 := by
  have hw : vBits78.Wf := by decide
  obtain ⟨h1, h2, h3⟩ := copy_bits_le vBits78 hw 9 200
  exact ⟨hw, h1, h2, h3⟩

end H256
